import Mathlib

/-!
Verification of the chunked tokenization pipeline of
`src/note/utils/lyric_tokenizer.py`.

Text is modelled as `List Char`; a chunk and a word are also `List Char`.
Python string lengths, slicing (`s[:n]`, `s[n:]`) and `" ".join` become
`List.length`, `List.take`/`List.drop` and `spaceJoin`.
-/

namespace LyricTokenizer

/-- Whitespace per Python's `str` semantics (the `\s` class of `re` on `str`
and `str.strip()`): the characters with the Unicode White_Space property
together with the control characters U+001C..U+001F. -/
def isPySpace (c : Char) : Bool :=
  c = ' ' || c = '\t' || c = '\n' || c = '\x0b' || c = '\x0c' || c = '\r' ||
  c = '\x1c' || c = '\x1d' || c = '\x1e' || c = '\x1f' ||
  c = '\x85' || c = '\xa0' || c = ' ' ||
  (' ' ≤ c && c ≤ ' ') ||
  c = ' ' || c = ' ' || c = ' ' || c = ' ' || c = '　'

/-- `text.strip()`: remove leading and trailing whitespace. -/
def pyStrip (s : List Char) : List Char :=
  ((s.dropWhile fun c => isPySpace c).reverse.dropWhile fun c => isPySpace c).reverse

/-- Helper for `pyWords`: `cur` holds the (reversed) word being scanned. -/
def pyWordsGo : List Char → List Char → List (List Char)
  | [], cur => if cur = [] then [] else [cur.reverse]
  | c :: cs, cur =>
    if isPySpace c then
      if cur = [] then pyWordsGo cs [] else cur.reverse :: pyWordsGo cs []
    else pyWordsGo cs (c :: cur)

/-- The maximal whitespace-free runs of `s`, in order.  `re.split(r"\s+", s)`
on a stripped string yields exactly these runs, except that on the empty
string it yields `[""]`, which the source loop's `if not p: continue`
discards; both behaviours coincide with `pyWords` once empties are skipped. -/
def pyWords (s : List Char) : List (List Char) := pyWordsGo s []

/-- `" ".join(ws)`. -/
def spaceJoin : List (List Char) → List Char
  | [] => []
  | [w] => w
  | w :: v :: ws => w ++ ' ' :: spaceJoin (v :: ws)

/-- `sum(len(x) for x in buf) + max(0, len(buf) - 1)` — the length of
`" ".join(buf)`, as the source recomputes `cur_len` (lines 83 and 98). -/
def weight (buf : List (List Char)) : Nat :=
  (buf.map List.length).sum + (buf.length - 1)

/-- The `while len(buf[-1]) > hard_max_chars` loop (lines 77–83) acting on the
last buffer element `w`: repeatedly emit `w[:hard]` and continue with
`w[hard:]` (the retained remainder is always non-empty because
`len(w) > hard` there).  `fuel` bounds the number of iterations; a fuel of
`w.length` is exhausted only when `hard = 0` and `w ≠ []`, which is exactly
the case in which the source loop never terminates (each iteration yields
`""` and leaves `w` unchanged); the fuel-truncated value agrees with the
prefix of chunks the source actually yields. -/
def forceSplitF : Nat → Nat → List Char → List (List Char) × List Char
  | 0, _, w => ([], w)
  | fuel + 1, hard, w =>
    if hard < w.length then
      let r := forceSplitF fuel hard (w.drop hard)
      (w.take hard :: r.1, r.2)
    else ([], w)

/-- The safety-valve scan (lines 87–94): walk `buf` from the front, keeping
words while the running total (`len(w)` plus a separator except for the
first, `i > 0`) stays within `hard`; stop (`break`) at the first overflow. -/
def valveGo (hard : Nat) : List (List Char) → Nat → Bool → List (List Char)
  | [], _, _ => []
  | w :: ws, total, isFirst =>
    let add := w.length + (if isFirst then 0 else 1)
    if hard < total + add then [] else w :: valveGo hard ws (total + add) false

/-- The tail of each `for p in parts` iteration of `_iter_space_chunks`,
common to both branches of the soft-limit test: the
`while len(buf[-1]) > hard_max_chars` forced intra-word split (lines 77–83)
followed by the buffer safety valve (lines 86–98).  `em1` is the chunk
already yielded by the soft-limit flush (if any), `buf1` (never empty here)
and `cur1` are `buf` and `cur_len` after the word `p` was placed.  The
source pops the last buffer element, yields `hard`-sized pieces and
re-appends the remainder if non-empty (`if rest:`), recomputing `cur_len`
only when the loop body ran; the valve then emits a greedy prefix of the
buffer when `cur_len` exceeds the hard bound. -/
def chunkPost (hardC : Nat) (em1 buf1 : List (List Char)) (cur1 : Nat) :
    List (List Char) × (List (List Char) × Nat) :=
  let lastw := buf1.getLastD []
  let fs := forceSplitF lastw.length hardC lastw
  let buf2 := if fs.2 = [] then buf1.dropLast else buf1.dropLast ++ [fs.2]
  let cur2 := if fs.1 = [] then cur1 else weight buf2
  if hardC < cur2 then
    let out := valveGo hardC buf2 0 true
    if out = [] then (em1 ++ fs.1, (buf2, cur2))
    else (em1 ++ fs.1 ++ [spaceJoin out], (buf2.drop out.length, weight (buf2.drop out.length)))
  else (em1 ++ fs.1, (buf2, cur2))

/-- One iteration of the `for p in parts` loop of `_iter_space_chunks`
(lines 64–98): skip empty parts (`if not p: continue`); if adding `p` (with
its separator, `add_len`) would exceed `max_chars` and the buffer is
non-empty, yield the joined buffer and restart it with `p` alone, else
append `p`; then run the forced-split and safety-valve tail.  Returns the
chunks yielded during the iteration, in order, and the updated
`(buf, cur_len)` state. -/
def chunkStep (maxC hardC : Nat) (st : List (List Char) × Nat) (p : List Char) :
    List (List Char) × (List (List Char) × Nat) :=
  if p = [] then ([], st)
  else
    let addLen := (if st.1 = [] then 0 else 1) + p.length
    if maxC < st.2 + addLen ∧ st.1 ≠ [] then
      chunkPost hardC [spaceJoin st.1] [p] p.length
    else
      chunkPost hardC [] (st.1 ++ [p]) (st.2 + addLen)

/-- The word loop of `_iter_space_chunks` followed by the final
`if buf: yield " ".join(buf)` (lines 100–101). -/
def chunkLoop (maxC hardC : Nat) : List (List Char) → List (List Char) × Nat → List (List Char)
  | [], st => if st.1 = [] then [] else [spaceJoin st.1]
  | p :: ps, st =>
    let r := chunkStep maxC hardC st p
    r.1 ++ chunkLoop maxC hardC ps r.2

/-- `_iter_space_chunks(text, max_chars, hard_max_chars)` (lines 48–101):
`if not text: return`, split the stripped text on whitespace runs, then run
the chunking loop from the empty buffer. -/
def iterSpaceChunks (text : List Char) (maxChars hardMaxChars : Nat) : List (List Char) :=
  if text = [] then []
  else chunkLoop maxChars hardMaxChars (pyWords (pyStrip text)) ([], 0)

/-- `NOISE_CHARS` (line 17): the noise characters deleted by `_clean_text`,
`set("?？「」.-！!(（)）…・")` — order and duplication are irrelevant
(membership set). -/
def NOISE_CHARS : List Char :=
  ['?', '？', '「', '」', '.', '-', '！', '!', '(', '（', ')', '）', '…', '・']

/-- Modelled from the spec: the per-character compatibility decomposition of
Unicode NFKC (`unicodedata.normalize("NFKC", ·)` is a library call, not code
of this repository), restricted to the code points this development
evaluates it on, and faithful to the Unicode character database there:
the compatibility spaces fold to U+0020; fullwidth `？！（）` fold to their
ASCII forms; `…` (U+2026) decomposes to `"..."`; `é` (U+00E9) canonically
decomposes to `e` + U+0301 (recomposed by `composeCanon`); every other
character involved (ASCII, kana/kanji, brackets, U+0301, U+30FB) has no
decomposition. -/
def nfkcChar (c : Char) : List Char :=
  if c = '\xa0' || c = ' ' || c = ' ' || c = '　' || (' ' ≤ c && c ≤ ' ') then [' ']
  else if c = '？' then ['?']
  else if c = '！' then ['!']
  else if c = '（' then ['(']
  else if c = '）' then [')']
  else if c = '…' then ['.', '.', '.']
  else if c = 'é' then ['e', '́']
  else [c]

/-- Modelled from the spec: the canonical composition pass of NFKC,
restricted to the one composable pair occurring in this development:
`e` followed by COMBINING ACUTE ACCENT (U+0301) composes to `é` (U+00E9). -/
def composeCanon : List Char → List Char
  | [] => []
  | [c] => [c]
  | a :: b :: rest =>
    if a = 'e' ∧ b = '́' then 'é' :: composeCanon rest
    else a :: composeCanon (b :: rest)

/-- Modelled from the spec: `_nfkc` (lines 35–36), i.e.
`unicodedata.normalize("NFKC", s)`: compatibility-decompose every character,
then canonically compose. -/
def nfkc (s : List Char) : List Char := composeCanon (s.flatMap nfkcChar)

/-- `_clean_text` (lines 39–45): NFKC, then delete the noise characters
(`str.translate` with a deletion table; `NOISE_CHARS` is non-empty, so the
`if NOISE_CHARS:` guard always takes the deleting branch). -/
def clean_text (text : List Char) : List Char :=
  (nfkc text).filter fun c => !(NOISE_CHARS.contains c)

/-- A Sudachi morpheme as the source consumes it: `surface()`,
`dictionary_form()`, and the `part_of_speech()` tuple (a non-empty list of
tags; the source reads only index 0). -/
structure Morpheme where
  surface : String
  dictionaryForm : String
  partOfSpeech : List String
deriving DecidableEq, Repr

/-- `m.part_of_speech()[0]`: the primary part-of-speech tag.  Sudachi's
tuple always has six entries, so index 0 is its head. -/
def Morpheme.pos0 (m : Morpheme) : String := m.partOfSpeech.headD ""

/-- `normalize_baseform` (lines 29–32): dictionary form for verbs (動詞) and
adjectives (形容詞), surface form otherwise. -/
def normalize_baseform (m : Morpheme) : String :=
  if m.pos0 ∈ (["動詞", "形容詞"] : List String) then m.dictionaryForm else m.surface

/-- `DEFAULT_KEEP_POS` (line 14): noun, adjective, verb, pronoun, adnominal.
Python's `set` is modelled as a list used only for membership and
emptiness. -/
def DEFAULT_KEEP_POS : List String := ["名詞", "形容詞", "動詞", "代名詞", "連体詞"]

/-- `NG_SURFACE` (line 26): the process-wide NG-word set, empty. -/
def NG_SURFACE : List String := []

/-- A `bool | str | collection` argument as accepted by `base_tokenize` for
`keep_pos` and `ng_words`. -/
inductive PySetArg where
  | bool (b : Bool)
  | str (s : String)
  | coll (ws : List String)
deriving DecidableEq, Repr

/-- The `keep_pos` normalization of `base_tokenize` (lines 127–132). -/
def resolveKeepPos : PySetArg → List String
  | .bool b => if b then DEFAULT_KEEP_POS else []
  | .str s => [s]
  | .coll ws => ws

/-- The `ng_words` normalization of `base_tokenize` (lines 135–140). -/
def resolveNgWords : PySetArg → List String
  | .bool b => if b then NG_SURFACE else []
  | .str s => [s]
  | .coll ws => ws

/-- Sudachi's split mode (`SplitMode.C` etc.): opaque, its identity is never
inspected by the source beyond `is None`. -/
abbrev SplitMode := Unit

/-- The external analyzer capability: `tok.tokenize(chunk, split_mode)`
returns a sequence of morphemes, or raises — modelled as `none`. -/
abbrev Analyzer := List Char → SplitMode → Option (List Morpheme)

/-- The body of the per-morpheme loop of `base_tokenize` (lines 152–167):
skip when the keep-set is non-empty (Python truthiness) and the tag is not
in it; compute the candidate via `normalize_baseform`; skip when the NG-set
is non-empty and the candidate is empty or NG; finally append only a
non-empty candidate. -/
def acceptToken (keepS ngS : List String) (m : Morpheme) : Option String :=
  if keepS ≠ [] ∧ m.pos0 ∉ keepS then none
  else
    let surf := normalize_baseform m
    if ngS ≠ [] ∧ (surf = "" ∨ surf ∈ ngS) then none
    else if surf ≠ "" then some surf else none

/-- One chunk's contribution to the output of `base_tokenize`
(lines 148–170): empty chunks are skipped (`if not chunk: continue`), and a
chunk on which the analyzer raises contributes nothing (the
`try ... except Exception: continue` around the morpheme loop); otherwise
the accepted tokens of its morphemes, in analyzer order. -/
def chunkContribution (t : Analyzer) (sm : SplitMode) (keepS ngS : List String)
    (chunk : List Char) : List String :=
  if chunk = [] then []
  else
    match t chunk sm with
    | none => []
    | some ms => ms.filterMap (acceptToken keepS ngS)

/-- The `RuntimeError` message of line 124. -/
def sudachiUninitMsg : String := "Sudachi tokenizer (tok) / split_mode is uninitialized"

/-- `tok if tok is not None else _TOK` (lines 119–122): an explicitly passed
value overrides the module-level default. -/
def resolveOpt {α : Type} (passed dflt : Option α) : Option α :=
  match passed with
  | none => dflt
  | some x => some x

/-- `base_tokenize` (lines 104–172).  `TOK` and `SPLIT_MODE` are the module
globals `_TOK` and `_SPLIT_MODE` (built from the external Sudachi library
when the module loads); `tok` and `split_mode` are the keyword arguments.  The
`RuntimeError` of line 124 is the `.error` case; otherwise the cleaned text
is chunked and each chunk's accepted tokens are appended in order. -/
def base_tokenize (TOK : Option Analyzer) (SPLIT_MODE : Option SplitMode)
    (text : List Char) (keep_pos ng_words : PySetArg)
    (max_chars_per_chunk hard_max_chars : Nat)
    (tok : Option Analyzer) (split_mode : Option SplitMode) :
    Except String (List String) :=
  match resolveOpt tok TOK, resolveOpt split_mode SPLIT_MODE with
  | some t, some sm =>
    let keepS := resolveKeepPos keep_pos
    let ngS := resolveNgWords ng_words
    let cleaned := clean_text text
    .ok ((iterSpaceChunks cleaned max_chars_per_chunk hard_max_chars).flatMap
      (chunkContribution t sm keepS ngS))
  | _, _ => .error sudachiUninitMsg

/-- The decomposition of one word into the fragments the chunker's forced
intra-word split produces: pieces of exactly `hard` characters followed by
the final remainder (the word itself when within bound). -/
def fragmentsOf (hard : Nat) (w : List Char) : List (List Char) :=
  let r := forceSplitF w.length hard w
  r.1 ++ [r.2]

/-- The whitespace-collapsed form of a text, following the claim's words:
runs of whitespace replaced by one space, leading and trailing whitespace
removed. -/
def collapseWs (text : List Char) : List Char := spaceJoin (pyWords text)

/-- A word list has only non-whitespace characters in a word. -/
abbrev allNonWs (w : List Char) : Prop := ∀ c ∈ w, isPySpace c = false

/-- Formalization of the claim "at most one word of the input is fragmented
across multiple chunks, and the fragments of a fragmented word appear in
left-to-right order": the word sequence recovered from the chunks either is
the input word sequence, or differs from it by replacing one word with an
in-order decomposition into at least two non-empty fragments. -/
def AtMostOneFragmented (words chunkWords : List (List Char)) : Prop :=
  chunkWords = words ∨
    ∃ pre w suf frags, words = pre ++ w :: suf ∧ 2 ≤ frags.length ∧
      frags.flatten = w ∧ (∀ f ∈ frags, f ≠ []) ∧ chunkWords = pre ++ frags ++ suf

/-- An analyzer that returns each chunk unchanged as one noun morpheme;
used to evaluate the pipeline at concrete inputs. -/
def idAnalyzer : Analyzer := fun chunk _ =>
  some [{ surface := String.mk chunk, dictionaryForm := String.mk chunk,
          partOfSpeech := ["名詞"] }]


/-- Invariant of the chunker buffer between loop iterations: every buffered
word is non-empty, whitespace-free and within the hard bound. -/
def GoodBuf (hardC : Nat) (buf : List (List Char)) : Prop :=
  ∀ w ∈ buf, w ≠ [] ∧ allNonWs w ∧ w.length ≤ hardC

/-- A well-formed emitted chunk: non-empty, within the hard bound, and the
space-join of its own (non-empty) word list. -/
def GoodChunk (hardC : Nat) (c : List Char) : Prop :=
  c ≠ [] ∧ c.length ≤ hardC ∧ pyWords c ≠ [] ∧ spaceJoin (pyWords c) = c

end LyricTokenizer


namespace LyricTokenizer

theorem mem_pyWordsGo : ∀ (s cur : List Char), (∀ c ∈ cur, isPySpace c = false) →
    ∀ w ∈ pyWordsGo s cur, w ≠ [] ∧ allNonWs w := by
  intro s
  induction s with
  | nil =>
    intro cur hcur w hw
    simp only [pyWordsGo] at hw
    split at hw
    · simp at hw
    · rename_i hne
      simp only [List.mem_singleton] at hw
      subst hw
      refine ⟨by simpa using hne, ?_⟩
      intro c hc
      exact hcur c (List.mem_reverse.mp hc)
  | cons a s ih =>
    intro cur hcur w hw
    simp only [pyWordsGo] at hw
    by_cases ha : isPySpace a = true
    · rw [if_pos ha] at hw
      split at hw
      · exact ih [] (by simp) w hw
      · rename_i hne
        rcases List.mem_cons.mp hw with h | h
        · subst h
          refine ⟨by simpa using hne, ?_⟩
          intro c hc
          exact hcur c (List.mem_reverse.mp hc)
        · exact ih [] (by simp) w h
    · rw [if_neg ha] at hw
      refine ih (a :: cur) ?_ w hw
      intro c hc
      rcases List.mem_cons.mp hc with h | h
      · subst h; simpa using ha
      · exact hcur c h

theorem pyWordsGo_allWs : ∀ (s : List Char), (∀ c ∈ s, isPySpace c = true) →
    ∀ cur, pyWordsGo s cur = if cur = [] then [] else [cur.reverse] := by
  intro s
  induction s with
  | nil => intro _ cur; rfl
  | cons a s ih =>
    intro hs cur
    have ha : isPySpace a = true := hs a (by simp)
    have hs' : ∀ c ∈ s, isPySpace c = true := fun c hc => hs c (List.mem_cons_of_mem _ hc)
    have hbase : pyWordsGo s [] = [] := by rw [ih hs' [], if_pos rfl]
    simp only [pyWordsGo, ha, if_true]
    rw [hbase]

theorem pyWords_allWs {s : List Char} (hs : ∀ c ∈ s, isPySpace c = true) :
    pyWords s = [] := by
  rw [pyWords, pyWordsGo_allWs s hs [], if_pos rfl]

theorem pyWordsGo_append_allWs {v : List Char} (hv : ∀ c ∈ v, isPySpace c = true) :
    ∀ (u cur : List Char), pyWordsGo (u ++ v) cur = pyWordsGo u cur := by
  intro u
  induction u with
  | nil =>
    intro cur
    rw [List.nil_append, pyWordsGo_allWs v hv cur]
    rfl
  | cons a u ih =>
    intro cur
    rw [List.cons_append]
    by_cases ha : isPySpace a = true
    · have h1 : ∀ z : List Char, pyWordsGo (a :: z) cur =
          if cur = [] then pyWordsGo z [] else cur.reverse :: pyWordsGo z [] := by
        intro z
        simp only [pyWordsGo, ha, if_true]
      rw [h1, h1, ih []]
    · have ha' : isPySpace a = false := by simpa using ha
      have h1 : ∀ z : List Char, pyWordsGo (a :: z) cur = pyWordsGo z (a :: cur) := by
        intro z
        simp only [pyWordsGo, ha', Bool.false_eq_true, if_false]
      rw [h1, h1, ih (a :: cur)]

theorem pyWordsGo_dropWhile (s : List Char) :
    pyWordsGo (s.dropWhile fun c => isPySpace c) [] = pyWordsGo s [] := by
  induction s with
  | nil => rfl
  | cons a s ih =>
    by_cases ha : isPySpace a = true
    · rw [List.dropWhile_cons_of_pos (by simpa using ha), ih]
      simp [pyWordsGo, ha]
    · rw [List.dropWhile_cons_of_neg (by simpa using ha)]

theorem pyWords_strip (s : List Char) : pyWords (pyStrip s) = pyWords s := by
  unfold pyStrip pyWords
  set t := s.dropWhile fun c => isPySpace c with ht
  have hsplit : t = (t.reverse.dropWhile fun c => isPySpace c).reverse ++
      (t.reverse.takeWhile fun c => isPySpace c).reverse := by
    rw [← List.reverse_append, List.takeWhile_append_dropWhile, List.reverse_reverse]
  have hws : ∀ c ∈ (t.reverse.takeWhile fun c => isPySpace c).reverse, isPySpace c = true := by
    intro c hc
    exact List.mem_takeWhile_imp (List.mem_reverse.mp hc)
  calc pyWordsGo (t.reverse.dropWhile fun c => isPySpace c).reverse [] =
      pyWordsGo ((t.reverse.dropWhile fun c => isPySpace c).reverse ++
        (t.reverse.takeWhile fun c => isPySpace c).reverse) [] :=
        (pyWordsGo_append_allWs hws _ []).symm
    _ = pyWordsGo t [] := by rw [← hsplit]
    _ = pyWordsGo s [] := pyWordsGo_dropWhile s

theorem mem_pyWords {s : List Char} : ∀ w ∈ pyWords s, w ≠ [] ∧ allNonWs w :=
  mem_pyWordsGo s [] (by simp)

theorem pyWordsGo_word_append : ∀ (w : List Char), allNonWs w →
    ∀ (s cur : List Char), pyWordsGo (w ++ s) cur = pyWordsGo s (w.reverse ++ cur) := by
  intro w
  induction w with
  | nil => intro _ s cur; simp
  | cons a w ih =>
    intro hw s cur
    have ha : isPySpace a = false := hw a (by simp)
    have hw' : allNonWs w := fun c hc => hw c (List.mem_cons_of_mem _ hc)
    rw [List.cons_append]
    have h1 : pyWordsGo (a :: (w ++ s)) cur = pyWordsGo (w ++ s) (a :: cur) := by
      simp only [pyWordsGo, ha, Bool.false_eq_true, if_false]
    rw [h1, ih hw' s (a :: cur), List.reverse_cons, List.append_assoc]
    rfl

theorem pyWords_single {w : List Char} (hw : allNonWs w) (hne : w ≠ []) :
    pyWords w = [w] := by
  unfold pyWords
  have h := pyWordsGo_word_append w hw [] []
  rw [List.append_nil] at h
  rw [h]
  simp only [pyWordsGo, List.append_nil]
  rw [if_neg (by simpa using hne)]
  simp

theorem pyWords_spaceJoin : ∀ (g : List (List Char)), g ≠ [] →
    (∀ w ∈ g, w ≠ [] ∧ allNonWs w) → pyWords (spaceJoin g) = g := by
  intro g
  induction g with
  | nil => intro h; exact absurd rfl h
  | cons w g ih =>
    intro _ hg
    rcases hg w (by simp) with ⟨hwne, hwnw⟩
    cases g with
    | nil => exact pyWords_single hwnw hwne
    | cons v g2 =>
      have hjoin : spaceJoin (w :: v :: g2) = w ++ ' ' :: spaceJoin (v :: g2) := rfl
      rw [hjoin]
      unfold pyWords
      rw [pyWordsGo_word_append w hwnw]
      have hsp : isPySpace ' ' = true := by decide
      simp only [pyWordsGo, hsp, if_true, List.append_nil]
      rw [if_neg (by simpa using hwne)]
      have h2 := ih (by simp) (fun u hu => hg u (List.mem_cons_of_mem _ hu))
      unfold pyWords at h2
      rw [h2, List.reverse_reverse]

end LyricTokenizer

namespace LyricTokenizer

theorem spaceJoin_cons_cons (w v : List Char) (ws : List (List Char)) :
    spaceJoin (w :: v :: ws) = w ++ ' ' :: spaceJoin (v :: ws) := rfl

theorem spaceJoin_append : ∀ (l1 l2 : List (List Char)), l1 ≠ [] → l2 ≠ [] →
    spaceJoin (l1 ++ l2) = spaceJoin l1 ++ ' ' :: spaceJoin l2 := by
  intro l1
  induction l1 with
  | nil => intro l2 h _; exact absurd rfl h
  | cons w l1 ih =>
    intro l2 _ h2
    cases l1 with
    | nil =>
      cases l2 with
      | nil => exact absurd rfl h2
      | cons v l2 => rfl
    | cons v l1 =>
      rw [List.cons_append, List.cons_append, spaceJoin_cons_cons,
        ← List.cons_append, ih l2 (by simp) h2, spaceJoin_cons_cons, List.append_assoc,
        List.cons_append]

theorem length_spaceJoin : ∀ l : List (List Char), (spaceJoin l).length = weight l := by
  intro l
  induction l with
  | nil => rfl
  | cons w l ih =>
    cases l with
    | nil => simp [spaceJoin, weight]
    | cons v l2 =>
      rw [spaceJoin_cons_cons]
      simp only [List.length_append, List.length_cons, ih]
      simp only [weight, List.map_cons, List.sum_cons, List.length_cons]
      omega

theorem spaceJoin_ne_nil : ∀ l : List (List Char), l ≠ [] → (∀ w ∈ l, w ≠ []) →
    spaceJoin l ≠ [] := by
  intro l hne hmem
  cases l with
  | nil => exact absurd rfl hne
  | cons w l =>
    cases l with
    | nil => exact hmem w (by simp)
    | cons v l2 =>
      rw [spaceJoin_cons_cons]
      intro h
      rcases List.append_eq_nil.mp h with ⟨_, h2⟩
      exact List.cons_ne_nil _ _ h2

theorem weight_nil : weight [] = 0 := rfl

theorem weight_single (w : List Char) : weight [w] = w.length := by
  simp [weight]

theorem weight_append_single : ∀ (l : List (List Char)) (w : List Char),
    weight (l ++ [w]) = weight l + (if l = [] then 0 else 1) + w.length := by
  intro l w
  cases l with
  | nil => simp [weight]
  | cons v l2 =>
    simp only [weight, List.map_append, List.sum_append, List.length_append]
    simp only [List.map_cons, List.map_nil, List.sum_cons, List.sum_nil, List.length_cons,
      List.length_nil, if_neg (List.cons_ne_nil v l2)]
    omega

theorem mem_spaceJoin_of_mem : ∀ (l : List (List Char)) (w : List Char), w ∈ l →
    ∀ c ∈ w, c ∈ spaceJoin l := by
  intro l
  induction l with
  | nil => intro w hw; simp at hw
  | cons v l ih =>
    intro w hw c hc
    cases l with
    | nil =>
      simp only [List.mem_singleton] at hw
      subst hw
      exact hc
    | cons u l2 =>
      rw [spaceJoin_cons_cons]
      rcases List.mem_cons.mp hw with h | h
      · subst h
        exact List.mem_append_left _ hc
      · exact List.mem_append_right _ (List.mem_cons_of_mem _ (ih w h c hc))

theorem forceSplitF_of_le {hard : Nat} {w : List Char} (h : w.length ≤ hard) :
    ∀ fuel, forceSplitF fuel hard w = ([], w) := by
  intro fuel
  cases fuel with
  | zero => rfl
  | succ n =>
    simp only [forceSplitF]
    rw [if_neg (by omega)]

theorem forceSplitF_spec {hard : Nat} (hpos : 1 ≤ hard) :
    ∀ (fuel : Nat) (w : List Char), w.length ≤ fuel →
      (∀ q ∈ (forceSplitF fuel hard w).1, q.length = hard) ∧
      (forceSplitF fuel hard w).2.length ≤ hard ∧
      ((forceSplitF fuel hard w).1 = [] → (forceSplitF fuel hard w).2 = w) ∧
      (w ≠ [] → (forceSplitF fuel hard w).2 ≠ []) ∧
      ((forceSplitF fuel hard w).1.flatten ++ (forceSplitF fuel hard w).2 = w) ∧
      (hard < w.length → (forceSplitF fuel hard w).1 ≠ []) := by
  intro fuel
  induction fuel with
  | zero =>
    intro w hw
    have : w = [] := List.length_eq_zero.mp (Nat.le_zero.mp hw)
    subst this
    refine ⟨by simp [forceSplitF], by simp [forceSplitF], fun _ => rfl, fun h => absurd rfl h,
      by simp [forceSplitF], ?_⟩
    simp
  | succ n ih =>
    intro w hw
    by_cases hlen : hard < w.length
    · have hrec := ih (w.drop hard) (by simpa using by omega)
      have heq : forceSplitF (n + 1) hard w =
          (w.take hard :: (forceSplitF n hard (w.drop hard)).1,
            (forceSplitF n hard (w.drop hard)).2) := by
        simp only [forceSplitF]
        rw [if_pos hlen]
      rw [heq]
      rcases hrec with ⟨hq, hrest, _, hne, hflat, _⟩
      have hdropne : w.drop hard ≠ [] := by
        intro h
        have := congrArg List.length h
        simp at this
        omega
      refine ⟨?_, hrest, by simp, fun _ => hne hdropne, ?_, by simp⟩
      · intro q hq2
        rcases List.mem_cons.mp hq2 with h | h
        · subst h
          simp [List.length_take]
          omega
        · exact hq q h
      · simp only [List.flatten_cons, List.append_assoc, hflat]
        exact List.take_append_drop hard w
    · rw [forceSplitF_of_le (by omega)]
      refine ⟨by simp, by simpa using by omega, fun _ => rfl, fun h => h, by simp, ?_⟩
      intro h
      exact absurd h hlen

theorem fragmentsOf_of_le {hard : Nat} {w : List Char} (h : w.length ≤ hard) :
    fragmentsOf hard w = [w] := by
  unfold fragmentsOf
  rw [forceSplitF_of_le h]
  rfl

theorem fragmentsOf_spec {hard : Nat} (hpos : 1 ≤ hard) (w : List Char) :
    (fragmentsOf hard w).flatten = w ∧
    (∀ f ∈ fragmentsOf hard w, f.length ≤ hard) ∧
    (w ≠ [] → ∀ f ∈ fragmentsOf hard w, f ≠ []) ∧
    (hard < w.length → 2 ≤ (fragmentsOf hard w).length) := by
  have h := forceSplitF_spec hpos w.length w (Nat.le_refl _)
  rcases h with ⟨hq, hrest, _, hne, hflat, hlong⟩
  unfold fragmentsOf
  refine ⟨?_, ?_, ?_, ?_⟩
  · rw [List.flatten_append]
    simpa using hflat
  · intro f hf
    rcases List.mem_append.mp hf with h | h
    · rw [hq f h]
    · simp only [List.mem_singleton] at h
      subst h
      exact hrest
  · intro hwne f hf
    rcases List.mem_append.mp hf with h | h
    · intro hfe
      have := hq f h
      rw [hfe] at this
      simp at this
      omega
    · simp only [List.mem_singleton] at h
      subst h
      exact hne hwne
  · intro hlen
    have hne1 := hlong hlen
    rcases List.exists_cons_of_ne_nil hne1 with ⟨p, ps, hps⟩
    show 2 ≤ ((forceSplitF w.length hard w).1 ++ [(forceSplitF w.length hard w).2]).length
    rw [hps]
    simp

end LyricTokenizer

namespace LyricTokenizer

theorem flatMap_pyWords_self : ∀ L : List (List Char),
    (∀ q ∈ L, q ≠ [] ∧ allNonWs q) → L.flatMap pyWords = L := by
  intro L
  induction L with
  | nil => intro _; rfl
  | cons q L ih =>
    intro h
    rcases h q (by simp) with ⟨hq, hqnw⟩
    rw [List.flatMap_cons, pyWords_single hqnw hq, ih (fun u hu => h u (List.mem_cons_of_mem _ hu))]
    rfl

theorem chunkPost_within {hardC : Nat} {em1 buf : List (List Char)} {p : List Char} {cur1 : Nat}
    (hp : p ≠ []) (hlen : p.length ≤ hardC) (hcur : cur1 ≤ hardC) :
    chunkPost hardC em1 (buf ++ [p]) cur1 = (em1, (buf ++ [p], cur1)) := by
  unfold chunkPost
  rw [List.getLastD_concat]
  dsimp only
  simp only [forceSplitF_of_le hlen, hp, if_false, List.dropLast_concat, if_true,
    List.append_nil]
  rw [if_neg (show ¬ hardC < cur1 by omega)]

theorem chunkPost_single {hardC : Nat} (hpos : 1 ≤ hardC) (em1 : List (List Char))
    (w : List Char) (hw : w ≠ []) :
    chunkPost hardC em1 [w] w.length =
      (em1 ++ (forceSplitF w.length hardC w).1,
        ([(forceSplitF w.length hardC w).2], (forceSplitF w.length hardC w).2.length)) := by
  rcases forceSplitF_spec hpos w.length w (Nat.le_refl _) with ⟨_, hrest, hrid, hne, _, _⟩
  have hrne : (forceSplitF w.length hardC w).2 ≠ [] := hne hw
  have hgl : ([w] : List (List Char)).getLastD [] = w := rfl
  have hdl : ([w] : List (List Char)).dropLast = [] := rfl
  unfold chunkPost
  rw [hgl, hdl]
  dsimp only
  simp only [hrne, if_false, List.nil_append]
  by_cases hfs : (forceSplitF w.length hardC w).1 = []
  · have hw2 : (forceSplitF w.length hardC w).2 = w := hrid hfs
    simp only [hfs, if_true, ite_true, hw2]
    rw [if_neg (show ¬ hardC < w.length by rw [← hw2]; omega)]
  · simp only [hfs, if_false, weight_single]
    rw [if_neg (show ¬ hardC < (forceSplitF w.length hardC w).2.length by omega)]

theorem chunkStep_eq_flush {maxC hardC : Nat} {buf : List (List Char)} {cur : Nat}
    {p : List Char} (hp : p ≠ []) (hbne : buf ≠ []) (hcond : maxC < cur + (1 + p.length)) :
    chunkStep maxC hardC (buf, cur) p = chunkPost hardC [spaceJoin buf] [p] p.length := by
  unfold chunkStep
  rw [if_neg hp]
  simp only [hbne, if_false, ite_false, not_false_eq_true, and_true, ne_eq]
  rw [if_pos hcond]

theorem chunkStep_eq_add_empty {maxC hardC : Nat} {cur : Nat} {p : List Char} (hp : p ≠ []) :
    chunkStep maxC hardC ([], cur) p = chunkPost hardC [] [p] (cur + (0 + p.length)) := by
  unfold chunkStep
  rw [if_neg hp]
  simp

theorem chunkStep_eq_add_room {maxC hardC : Nat} {buf : List (List Char)} {cur : Nat}
    {p : List Char} (hp : p ≠ []) (hbne : buf ≠ [])
    (hcond : ¬ maxC < cur + (1 + p.length)) :
    chunkStep maxC hardC (buf, cur) p = chunkPost hardC [] (buf ++ [p]) (cur + (1 + p.length)) := by
  unfold chunkStep
  rw [if_neg hp]
  simp only [hbne, if_false, ite_false, not_false_eq_true, and_true, ne_eq]
  rw [if_neg hcond]

theorem singleton_core {hardC : Nat} (hpos : 1 ≤ hardC) {p : List Char}
    (hp : p ≠ []) (hpnw : allNonWs p) :
    GoodBuf hardC [(forceSplitF p.length hardC p).2] ∧
    (forceSplitF p.length hardC p).2.length = weight [(forceSplitF p.length hardC p).2] ∧
    (forceSplitF p.length hardC p).2.length ≤ hardC ∧
    (forceSplitF p.length hardC p).1.flatMap pyWords = (forceSplitF p.length hardC p).1 ∧
    (forceSplitF p.length hardC p).1 ++ [(forceSplitF p.length hardC p).2] =
      fragmentsOf hardC p ∧
    (∀ q ∈ (forceSplitF p.length hardC p).1, GoodChunk hardC q) := by
  rcases forceSplitF_spec hpos p.length p (Nat.le_refl _) with ⟨hq, hrest, _, hne, hflat, _⟩
  have hrne : (forceSplitF p.length hardC p).2 ≠ [] := hne hp
  have hmemp : ∀ q ∈ (forceSplitF p.length hardC p).1, ∀ c ∈ q, c ∈ p := by
    intro q hq2 c hc
    rw [← hflat]
    exact List.mem_append_left _ (List.mem_flatten.mpr ⟨q, hq2, hc⟩)
  have hmemr : ∀ c ∈ (forceSplitF p.length hardC p).2, c ∈ p := by
    intro c hc
    rw [← hflat]
    exact List.mem_append_right _ hc
  have hpieceGood : ∀ q ∈ (forceSplitF p.length hardC p).1, q ≠ [] ∧ allNonWs q := by
    intro q hq2
    constructor
    · intro hqe
      have h3 := hq q hq2
      rw [hqe] at h3
      simp at h3
      omega
    · intro c hc
      exact hpnw c (hmemp q hq2 c hc)
  refine ⟨?_, (weight_single _).symm, hrest, ?_, rfl, ?_⟩
  · intro w hw
    simp only [List.mem_singleton] at hw
    subst hw
    exact ⟨hrne, fun c hc => hpnw c (hmemr c hc), hrest⟩
  · exact flatMap_pyWords_self _ hpieceGood
  · intro q hq2
    rcases hpieceGood q hq2 with ⟨hqne, hqnw⟩
    refine ⟨hqne, by rw [hq q hq2], ?_, ?_⟩
    · rw [pyWords_single hqnw hqne]
      simp
    · rw [pyWords_single hqnw hqne]
      rfl

theorem chunkStep_spec {maxC hardC : Nat} (hmh : maxC ≤ hardC) (hpos : 1 ≤ hardC)
    {buf : List (List Char)} {cur : Nat} {p : List Char}
    (hp : p ≠ []) (hpnw : allNonWs p)
    (hbuf : GoodBuf hardC buf) (hcur : cur = weight buf) (hle : cur ≤ hardC) :
    GoodBuf hardC (chunkStep maxC hardC (buf, cur) p).2.1 ∧
    (chunkStep maxC hardC (buf, cur) p).2.2 = weight (chunkStep maxC hardC (buf, cur) p).2.1 ∧
    (chunkStep maxC hardC (buf, cur) p).2.2 ≤ hardC ∧
    ((chunkStep maxC hardC (buf, cur) p).1.flatMap pyWords ++
        (chunkStep maxC hardC (buf, cur) p).2.1 = buf ++ fragmentsOf hardC p) ∧
    (∀ c ∈ (chunkStep maxC hardC (buf, cur) p).1, GoodChunk hardC c) := by
  by_cases hbe : buf = []
  · subst hbe
    have hcur0 : cur = 0 := by simpa [weight] using hcur
    subst hcur0
    rw [chunkStep_eq_add_empty hp]
    rw [show (0 : Nat) + (0 + p.length) = p.length by omega]
    rw [chunkPost_single hpos [] p hp]
    dsimp only
    rcases singleton_core hpos hp hpnw with ⟨hgb, hwt, hlen2, hfm, hfrag, hgc⟩
    refine ⟨hgb, hwt.symm, hlen2, ?_, hgc⟩
    rw [List.nil_append, hfm, List.nil_append, hfrag]
  · by_cases hflush : maxC < cur + (1 + p.length)
    · rw [chunkStep_eq_flush hp hbe hflush]
      rw [chunkPost_single hpos [spaceJoin buf] p hp]
      dsimp only
      rcases singleton_core hpos hp hpnw with ⟨hgb, hwt, hlen2, hfm, hfrag, hgc⟩
      have hbufstar : ∀ w ∈ buf, w ≠ [] ∧ allNonWs w := by
        intro w hw
        rcases hbuf w hw with ⟨h1, h2, _⟩
        exact ⟨h1, h2⟩
      have hpwj : pyWords (spaceJoin buf) = buf := pyWords_spaceJoin buf hbe hbufstar
      refine ⟨hgb, hwt.symm, hlen2, ?_, ?_⟩
      · rw [List.singleton_append, List.flatMap_cons, hpwj, hfm, List.append_assoc, hfrag]
      · intro c hc
        rcases List.mem_cons.mp hc with h | h
        · subst h
          refine ⟨spaceJoin_ne_nil buf hbe (fun w hw => (hbufstar w hw).1), ?_, ?_, ?_⟩
          · rw [length_spaceJoin, ← hcur]
            exact hle
          · rw [hpwj]; exact hbe
          · rw [hpwj]
        · exact hgc c h
    · rw [chunkStep_eq_add_room hp hbe hflush]
      have hplen : p.length ≤ hardC := by omega
      have hcur1 : cur + (1 + p.length) ≤ hardC := by omega
      rw [chunkPost_within hp hplen hcur1]
      dsimp only
      refine ⟨?_, ?_, hcur1, ?_, ?_⟩
      · intro w hw
        rcases List.mem_append.mp hw with h | h
        · exact hbuf w h
        · simp only [List.mem_singleton] at h
          subst h
          exact ⟨hp, hpnw, hplen⟩
      · rw [weight_append_single, if_neg hbe, ← hcur]
        omega
      · simp [fragmentsOf_of_le hplen]
      · intro c hc
        simp at hc

theorem chunkLoop_spec {maxC hardC : Nat} (hmh : maxC ≤ hardC) (hpos : 1 ≤ hardC) :
    ∀ (parts : List (List Char)) (buf : List (List Char)) (cur : Nat),
    (∀ w ∈ parts, w ≠ [] ∧ allNonWs w) → GoodBuf hardC buf → cur = weight buf → cur ≤ hardC →
    ((chunkLoop maxC hardC parts (buf, cur)).flatMap pyWords =
      buf ++ parts.flatMap (fragmentsOf hardC)) ∧
    (∀ c ∈ chunkLoop maxC hardC parts (buf, cur), GoodChunk hardC c) := by
  intro parts
  induction parts with
  | nil =>
    intro buf cur _ hbuf hcur hle
    by_cases hbe : buf = []
    · subst hbe
      constructor
      · rfl
      · intro c hc
        simp [chunkLoop] at hc
    · have hbufstar : ∀ w ∈ buf, w ≠ [] ∧ allNonWs w := by
        intro w hw
        rcases hbuf w hw with ⟨h1, h2, _⟩
        exact ⟨h1, h2⟩
      have hloop : chunkLoop maxC hardC [] (buf, cur) = [spaceJoin buf] := by
        unfold chunkLoop
        rw [if_neg hbe]
      rw [hloop]
      constructor
      · rw [List.flatMap_cons, pyWords_spaceJoin buf hbe hbufstar]
        simp
      · intro c hc
        simp only [List.mem_singleton] at hc
        subst hc
        refine ⟨spaceJoin_ne_nil buf hbe (fun w hw => (hbufstar w hw).1), ?_, ?_, ?_⟩
        · rw [length_spaceJoin, ← hcur]
          exact hle
        · rw [pyWords_spaceJoin buf hbe hbufstar]
          exact hbe
        · rw [pyWords_spaceJoin buf hbe hbufstar]
  | cons q ps ih =>
    intro buf cur hparts hbuf hcur hle
    rcases hparts q (by simp) with ⟨hq, hqnw⟩
    rcases chunkStep_spec hmh hpos hq hqnw hbuf hcur hle with ⟨hgb2, hcur2, hle2, hwords, hgc⟩
    have hps : ∀ w ∈ ps, w ≠ [] ∧ allNonWs w :=
      fun w hw => hparts w (List.mem_cons_of_mem _ hw)
    rcases ih ((chunkStep maxC hardC (buf, cur) q).2.1) ((chunkStep maxC hardC (buf, cur) q).2.2)
      hps hgb2 hcur2 hle2 with ⟨ih1, ih2⟩
    have hloop : chunkLoop maxC hardC (q :: ps) (buf, cur) =
        (chunkStep maxC hardC (buf, cur) q).1 ++
          chunkLoop maxC hardC ps ((chunkStep maxC hardC (buf, cur) q).2.1,
            (chunkStep maxC hardC (buf, cur) q).2.2) := rfl
    rw [hloop]
    constructor
    · rw [List.flatMap_append, ih1, ← List.append_assoc, hwords, List.append_assoc,
        List.flatMap_cons]
    · intro c hc
      rcases List.mem_append.mp hc with h | h
      · exact hgc c h
      · exact ih2 c h

theorem iterSpaceChunks_spec (text : List Char) {maxC hardC : Nat}
    (hmh : maxC ≤ hardC) (hpos : 1 ≤ hardC) :
    ((iterSpaceChunks text maxC hardC).flatMap pyWords =
      (pyWords text).flatMap (fragmentsOf hardC)) ∧
    (∀ c ∈ iterSpaceChunks text maxC hardC, GoodChunk hardC c) := by
  by_cases ht : text = []
  · subst ht
    constructor
    · rfl
    · intro c hc
      simp [iterSpaceChunks] at hc
  · have h := chunkLoop_spec hmh hpos (pyWords (pyStrip text)) [] 0
      (fun w hw => mem_pyWords w hw) (by intro w hw; simp at hw) rfl (Nat.zero_le _)
    rcases h with ⟨h1, h2⟩
    have hiter : iterSpaceChunks text maxC hardC =
        chunkLoop maxC hardC (pyWords (pyStrip text)) ([], 0) := by
      unfold iterSpaceChunks
      rw [if_neg ht]
    constructor
    · rw [hiter, h1, List.nil_append, pyWords_strip]
    · intro c hc
      rw [hiter] at hc
      exact h2 c hc

theorem flatMap_singleton_on : ∀ (L : List (List Char)) (f : List Char → List (List Char)),
    (∀ w ∈ L, f w = [w]) → L.flatMap f = L := by
  intro L f
  induction L with
  | nil => intro _; rfl
  | cons w L ih =>
    intro h
    rw [List.flatMap_cons, h w (by simp), ih (fun u hu => h u (List.mem_cons_of_mem _ hu))]
    rfl

theorem spaceJoin_flatMap_pyWords : ∀ L : List (List Char),
    (∀ c ∈ L, pyWords c ≠ [] ∧ spaceJoin (pyWords c) = c) →
    spaceJoin (L.flatMap pyWords) = spaceJoin L := by
  intro L
  induction L with
  | nil => intro _; rfl
  | cons c L ih =>
    intro h
    rcases h c (by simp) with ⟨hcne, hcj⟩
    cases L with
    | nil =>
      rw [List.flatMap_cons, List.flatMap_nil, List.append_nil, hcj]
      rfl
    | cons d L2 =>
      have hrest := ih (fun u hu => h u (List.mem_cons_of_mem _ hu))
      have hfne : (d :: L2).flatMap pyWords ≠ [] := by
        intro heq
        rw [List.flatMap_cons] at heq
        rcases List.append_eq_nil.mp heq with ⟨h1, _⟩
        exact (h d (by simp)).1 h1
      rw [List.flatMap_cons, spaceJoin_append _ _ hcne hfne, hcj, hrest, spaceJoin_cons_cons]

theorem pyStrip_of_nonWs {w : List Char} (hw : allNonWs w) : pyStrip w = w := by
  unfold pyStrip
  have h1 : w.dropWhile (fun c => isPySpace c) = w := by
    cases w with
    | nil => rfl
    | cons a t =>
      rw [List.dropWhile_cons_of_neg]
      simp [hw a (by simp)]
  rw [h1]
  have h2 : w.reverse.dropWhile (fun c => isPySpace c) = w.reverse := by
    cases hrev : w.reverse with
    | nil => rfl
    | cons a t =>
      rw [List.dropWhile_cons_of_neg]
      have ha : a ∈ w := by
        rw [← List.mem_reverse, hrev]
        simp
      simp [hw a ha]
  rw [h2, List.reverse_reverse]

theorem iterSpaceChunks_allWs {text : List Char} {maxC hardC : Nat}
    (h : ∀ c ∈ text, isPySpace c = true) : iterSpaceChunks text maxC hardC = [] := by
  by_cases ht : text = []
  · rw [ht]
    rfl
  · unfold iterSpaceChunks
    rw [if_neg ht, pyWords_strip, pyWords_allWs h]
    rfl

theorem nfkcChar_ws {c : Char} (h : isPySpace c = true) :
    ∀ d ∈ nfkcChar c, isPySpace d = true := by
  unfold nfkcChar
  split_ifs with h1 h2 h3 h4 h5 h6 h7
  · intro d hd
    simp only [List.mem_singleton] at hd
    subst hd
    decide
  · rw [h2] at h
    exact absurd h (by decide)
  · rw [h3] at h
    exact absurd h (by decide)
  · rw [h4] at h
    exact absurd h (by decide)
  · rw [h5] at h
    exact absurd h (by decide)
  · rw [h6] at h
    exact absurd h (by decide)
  · rw [h7] at h
    exact absurd h (by decide)
  · intro d hd
    simp only [List.mem_singleton] at hd
    subst hd
    exact h

theorem composeCanon_eq_self : ∀ {l : List Char}, (∀ c ∈ l, c ≠ 'e') → composeCanon l = l := by
  intro l
  induction l with
  | nil => intro _; rfl
  | cons a l ih =>
    intro h
    cases l with
    | nil => rfl
    | cons b rest =>
      have heq : composeCanon (a :: b :: rest) =
          if a = 'e' ∧ b = '́' then 'é' :: composeCanon rest
          else a :: composeCanon (b :: rest) := rfl
      rw [heq, if_neg (fun hc => h a (by simp) hc.1)]
      rw [ih (fun c hc => h c (List.mem_cons_of_mem _ hc))]

theorem nfkc_allWs {s : List Char} (h : ∀ c ∈ s, isPySpace c = true) :
    ∀ c ∈ nfkc s, isPySpace c = true := by
  have hflat : ∀ c ∈ s.flatMap nfkcChar, isPySpace c = true := by
    intro c hc
    rcases List.mem_flatMap.mp hc with ⟨a, ha, hca⟩
    exact nfkcChar_ws (h a ha) c hca
  unfold nfkc
  rw [composeCanon_eq_self (fun c hc heq => by
    have := hflat c hc
    rw [heq] at this
    exact absurd this (by decide))]
  exact hflat

theorem clean_text_allWs {text : List Char} (h : ∀ c ∈ text, isPySpace c = true) :
    ∀ c ∈ clean_text text, isPySpace c = true := by
  intro c hc
  unfold clean_text at hc
  exact nfkc_allWs h c (List.mem_of_mem_filter hc)

/-- C1 (counterexample): the claim "joining the chunks with single spaces
yields the whitespace-collapsed input" is false as stated: with
`maxChars = 2 ≤ 3 = hardMaxChars` and the single word `"aaaa"` (longer than
`hardMaxChars`), the chunker force-splits the word into `"aaa"` and `"a"`,
and rejoining inserts a space inside the word: `"aaa a" ≠ "aaaa"`. -/
theorem chunks_rejoin_fails_on_long_word :
    2 ≤ 3 ∧ spaceJoin (iterSpaceChunks (String.toList "aaaa") 2 3) ≠
      collapseWs (String.toList "aaaa") := by
  constructor
  · decide
  · decide

/-- C1 (amended): for every input text and configuration with
`maxChars ≤ hardMaxChars`, provided no whitespace-delimited word of the
input is longer than `hardMaxChars` (so the forced intra-word split never
fires), joining the produced chunks with single spaces yields exactly the
whitespace-collapsed input text. -/
theorem chunks_rejoin_collapse_of_no_long_word (text : List Char)
    (maxChars hardMaxChars : Nat) (hmh : maxChars ≤ hardMaxChars)
    (hwords : ∀ w ∈ pyWords text, w.length ≤ hardMaxChars) :
    spaceJoin (iterSpaceChunks text maxChars hardMaxChars) = collapseWs text := by
  by_cases hw0 : pyWords text = []
  · have hchunks : iterSpaceChunks text maxChars hardMaxChars = [] := by
      by_cases ht : text = []
      · rw [ht]; rfl
      · unfold iterSpaceChunks
        rw [if_neg ht, pyWords_strip, hw0]
        rfl
    rw [hchunks, collapseWs, hw0]
  · obtain ⟨w0, hw0m⟩ := List.exists_mem_of_ne_nil _ hw0
    have hpos : 1 ≤ hardMaxChars := by
      have h1 : w0 ≠ [] := (mem_pyWords w0 hw0m).1
      have h2 := hwords w0 hw0m
      have h3 : 1 ≤ w0.length := List.length_pos.mpr h1
      omega
    rcases iterSpaceChunks_spec text hmh hpos with ⟨h1, h2⟩
    have hfrag : (pyWords text).flatMap (fragmentsOf hardMaxChars) = pyWords text :=
      flatMap_singleton_on _ _ (fun w hw => fragmentsOf_of_le (hwords w hw))
    have hjoin : spaceJoin ((iterSpaceChunks text maxChars hardMaxChars).flatMap pyWords) =
        spaceJoin (iterSpaceChunks text maxChars hardMaxChars) :=
      spaceJoin_flatMap_pyWords _ (fun c hc => ⟨(h2 c hc).2.2.1, (h2 c hc).2.2.2⟩)
    rw [collapseWs, ← hjoin, h1, hfrag]

/-- C2 (counterexample): the claim "every chunk is non-empty and within
`hardMaxChars`" quantifies over every configuration with
`maxChars ≤ hardMaxChars`, but at `maxChars = hardMaxChars = 0` on input
`"a"` the source's forced-split loop `while len(buf[-1]) > 0` yields the
empty chunk `""` (`long_piece[:0]`) and never terminates; the embedding
truncates that divergence and exhibits the empty chunk. -/
theorem chunks_nonempty_fails_at_zero_hard :
    0 ≤ 0 ∧ ¬ (∀ c ∈ iterSpaceChunks (String.toList "a") 0 0,
      c ≠ [] ∧ c.length ≤ 0) := by
  constructor
  · decide
  · decide

/-- C2 (amended): for every input text and configuration with
`maxChars ≤ hardMaxChars` and `1 ≤ hardMaxChars`, every chunk produced by
the chunker is a non-empty string of length at most `hardMaxChars`. -/
theorem chunks_nonempty_and_bounded (text : List Char) (maxChars hardMaxChars : Nat)
    (hmh : maxChars ≤ hardMaxChars) (hpos : 1 ≤ hardMaxChars) :
    ∀ c ∈ iterSpaceChunks text maxChars hardMaxChars,
      c ≠ [] ∧ c.length ≤ hardMaxChars := by
  intro c hc
  rcases (iterSpaceChunks_spec text hmh hpos).2 c hc with ⟨h1, h2, _, _⟩
  exact ⟨h1, h2⟩

/-- C5 (amended): under `maxChars ≤ hardMaxChars` and `1 ≤ hardMaxChars`,
the word sequence recovered from the chunks is the input word sequence with
EVERY word longer than `hardMaxChars` (not at most one) replaced by its
in-order fragments; a word within the bound is never fragmented, and an
over-long word splits into at least two non-empty fragments that
concatenate, left to right, back to the word. -/
theorem every_long_word_fragments_in_order (text : List Char)
    (maxChars hardMaxChars : Nat) (hmh : maxChars ≤ hardMaxChars)
    (hpos : 1 ≤ hardMaxChars) :
    (iterSpaceChunks text maxChars hardMaxChars).flatMap pyWords =
      (pyWords text).flatMap (fragmentsOf hardMaxChars) ∧
    (∀ w ∈ pyWords text,
      (w.length ≤ hardMaxChars → fragmentsOf hardMaxChars w = [w]) ∧
      (hardMaxChars < w.length → 2 ≤ (fragmentsOf hardMaxChars w).length ∧
        (fragmentsOf hardMaxChars w).flatten = w ∧
        (∀ f ∈ fragmentsOf hardMaxChars w, f ≠ []))) := by
  constructor
  · exact (iterSpaceChunks_spec text hmh hpos).1
  · intro w hw
    constructor
    · exact fun h => fragmentsOf_of_le h
    · intro hlong
      rcases fragmentsOf_spec hpos w with ⟨hfl, _, hne, hlen⟩
      exact ⟨hlen hlong, hfl, hne (mem_pyWords w hw).1⟩

/-- C8: the candidate token is the morpheme's dictionary (base) form exactly
when its primary part-of-speech tag is 動詞 (verb) or 形容詞 (adjective),
and its surface form otherwise; in particular the verb morpheme with
surface 食べた and base form 食べる is emitted as 食べる. -/
theorem baseform_for_inflecting_pos :
    (∀ m : Morpheme, (m.pos0 = "動詞" ∨ m.pos0 = "形容詞") →
      normalize_baseform m = m.dictionaryForm) ∧
    (∀ m : Morpheme, ¬ (m.pos0 = "動詞" ∨ m.pos0 = "形容詞") →
      normalize_baseform m = m.surface) ∧
    normalize_baseform
      { surface := "食べた", dictionaryForm := "食べる",
        partOfSpeech := ["動詞", "一般"] } = "食べる" := by
  refine ⟨?_, ?_, rfl⟩
  · intro m h
    unfold normalize_baseform
    rw [if_pos (by simpa using h)]
  · intro m h
    unfold normalize_baseform
    rw [if_neg (by simpa using h)]

/-- C8 witness: the theorem applied to a concrete verb morpheme (dictionary
form kept) and a concrete noun morpheme (surface kept). -/
theorem baseform_for_inflecting_pos_example :
    normalize_baseform
      { surface := "食べた", dictionaryForm := "食べる",
        partOfSpeech := ["動詞", "一般"] } = "食べる" ∧
    normalize_baseform
      { surface := "猫", dictionaryForm := "猫",
        partOfSpeech := ["名詞", "普通名詞"] } = "猫" :=
  ⟨baseform_for_inflecting_pos.1
      { surface := "食べた", dictionaryForm := "食べる",
        partOfSpeech := ["動詞", "一般"] } (Or.inl (by decide)),
    baseform_for_inflecting_pos.2.1
      { surface := "猫", dictionaryForm := "猫",
        partOfSpeech := ["名詞", "普通名詞"] } (by decide)⟩

/-- C9: the token filter of `base_tokenize` rejects a morpheme exactly when
the part-of-speech allow-list is non-empty and the primary tag is not in
it, or the candidate token is empty, or the NG-word set is non-empty and
the candidate is in it; otherwise it emits the candidate unchanged.  An
empty allow-list keeps all tags and an empty NG-word set excludes
nothing. -/
theorem accept_token_characterization (keepS ngS : List String) (m : Morpheme) :
    acceptToken keepS ngS m =
      if (keepS ≠ [] ∧ m.pos0 ∉ keepS) ∨ normalize_baseform m = "" ∨
          (ngS ≠ [] ∧ normalize_baseform m ∈ ngS) then none
      else some (normalize_baseform m) := by
  unfold acceptToken
  by_cases h1 : keepS ≠ [] ∧ m.pos0 ∉ keepS
  · rw [if_pos h1, if_pos (Or.inl h1)]
  · rw [if_neg h1]
    by_cases h2 : ngS ≠ [] ∧ (normalize_baseform m = "" ∨ normalize_baseform m ∈ ngS)
    · rw [if_pos h2]
      rcases h2 with ⟨hng, h2⟩
      rcases h2 with h2 | h2
      · rw [if_pos (Or.inr (Or.inl h2))]
      · rw [if_pos (Or.inr (Or.inr ⟨hng, h2⟩))]
    · rw [if_neg h2]
      by_cases h3 : normalize_baseform m = ""
      · rw [if_neg (by simpa using h3), if_pos (Or.inr (Or.inl h3))]
      · rw [if_pos h3, if_neg ?_]
        intro hrej
        rcases hrej with h | h | h
        · exact h1 h
        · exact h3 h
        · exact h2 ⟨h.1, Or.inr h.2⟩

/-- C7 (counterexample): `_clean_text` (NFKC then noise deletion) is not
idempotent: on the input `e ( U+0301` the first pass leaves
`e U+0301` (deleting the noise character `(` that separated the base
letter from the combining acute), and the second pass's NFKC composes that
pair into `é`, so normalising twice differs from normalising once.  This
matches Python: `unicodedata.normalize` recomposes the sequence produced
by the deletion. -/
theorem clean_text_not_idempotent :
    clean_text (clean_text ['e', '(', '́']) ≠ clean_text ['e', '(', '́'] := by
  decide

/-- C7 (amended): the normalizer is idempotent on every input whose cleaned
form is itself NFKC-normalized (the deletion step alone is idempotent, so a
second pass can only differ by re-normalising text that the deletion left
denormalized around a combining mark). -/
theorem clean_text_idempotent_on_normalized (x : List Char)
    (h : nfkc (clean_text x) = clean_text x) :
    clean_text (clean_text x) = clean_text x := by
  have hstep : clean_text (clean_text x) =
      (clean_text x).filter (fun c => !(NOISE_CHARS.contains c)) := by
    unfold clean_text
    rw [show nfkc ((nfkc x).filter fun c => !(NOISE_CHARS.contains c)) =
      (nfkc x).filter (fun c => !(NOISE_CHARS.contains c)) from h]
  rw [hstep]
  unfold clean_text
  rw [List.filter_filter]
  simp

/-- C7 witness: the amended idempotence applied at a concrete input whose
cleaned form is normalized. -/
theorem clean_text_idempotent_example :
    clean_text (clean_text (String.toList "歌詞 テスト…？")) =
      clean_text (String.toList "歌詞 テスト…？") :=
  clean_text_idempotent_on_normalized (String.toList "歌詞 テスト…？") (by decide)

/-- C1 witness: the amended reconstruction theorem at a concrete input with
runs of whitespace and all words within the hard bound. -/
theorem chunks_rejoin_collapse_example :
    spaceJoin (iterSpaceChunks (String.toList "ab  cd \n ef") 2 3) =
      collapseWs (String.toList "ab  cd \n ef") :=
  chunks_rejoin_collapse_of_no_long_word (String.toList "ab  cd \n ef") 2 3
    (by decide) (by decide)

/-- C2 witness: the amended bound theorem applied at a concrete input
containing an over-long word that gets force-split, instantiated at the
chunk `"aaa"` that the split emits. -/
theorem chunks_nonempty_and_bounded_example :
    String.toList "aaa" ≠ [] ∧ (String.toList "aaa").length ≤ 3 :=
  chunks_nonempty_and_bounded (String.toList "aaaa bb") 2 3 (by decide) (by decide)
    (String.toList "aaa") (by decide)

/-- C5 witness: the amended fragmentation theorem at a concrete input in
which two distinct words are both force-split. -/
theorem every_long_word_fragments_example :
    (iterSpaceChunks (String.toList "aaaa bbbb") 2 3).flatMap pyWords =
      (pyWords (String.toList "aaaa bbbb")).flatMap (fragmentsOf 3) :=
  (every_long_word_fragments_in_order (String.toList "aaaa bbbb") 2 3
    (by decide) (by decide)).1

/-- C3: if the analyzer raises on some chunk (`t bad sm = none`), the
pipeline returns, without raising, the concatenation of the other chunks'
contributions in chunk order — the failed chunk contributes nothing, every
other chunk contributes its accepted tokens in within-chunk order. -/
theorem tokenize_skips_failed_chunk (TOK : Option Analyzer) (SPLIT : Option SplitMode)
    (t : Analyzer) (sm : SplitMode) (text : List Char) (keep_pos ng_words : PySetArg)
    (maxChars hardChars : Nat) (pre post : List (List Char)) (bad : List Char)
    (hchunks : iterSpaceChunks (clean_text text) maxChars hardChars = pre ++ bad :: post)
    (hfail : t bad sm = none) :
    base_tokenize TOK SPLIT text keep_pos ng_words maxChars hardChars (some t) (some sm) =
      .ok (pre.flatMap
          (chunkContribution t sm (resolveKeepPos keep_pos) (resolveNgWords ng_words)) ++
        post.flatMap
          (chunkContribution t sm (resolveKeepPos keep_pos) (resolveNgWords ng_words))) := by
  have hbt : base_tokenize TOK SPLIT text keep_pos ng_words maxChars hardChars
      (some t) (some sm) =
      .ok ((iterSpaceChunks (clean_text text) maxChars hardChars).flatMap
        (chunkContribution t sm (resolveKeepPos keep_pos) (resolveNgWords ng_words))) := rfl
  have hbadc : chunkContribution t sm (resolveKeepPos keep_pos) (resolveNgWords ng_words)
      bad = [] := by
    unfold chunkContribution
    by_cases hb : bad = []
    · rw [if_pos hb]
    · rw [if_neg hb, hfail]
  rw [hbt, hchunks, List.flatMap_append, List.flatMap_cons, hbadc, List.nil_append]

/-- C3 witness: three chunks `"aa"`, `"bb"`, `"cc"`, with an analyzer that
raises exactly on chunk 2; the pipeline returns the tokens of chunks 1 and
3 in order. -/
theorem tokenize_skips_failed_chunk_example :
    base_tokenize none none (String.toList "aa bb cc") (.bool true) (.bool false) 2 4
      (some (fun c _ => if c = String.toList "bb" then none
        else some [{ surface := String.mk c, dictionaryForm := String.mk c,
                     partOfSpeech := ["名詞"] }])) (some ()) =
      .ok ["aa", "cc"] := by
  have h := tokenize_skips_failed_chunk none none
    (fun c _ => if c = String.toList "bb" then none
      else some [{ surface := String.mk c, dictionaryForm := String.mk c,
                   partOfSpeech := ["名詞"] }]) ()
    (String.toList "aa bb cc") (.bool true) (.bool false) 2 4
    [String.toList "aa"] [String.toList "cc"] (String.toList "bb")
    (by decide) (by decide)
  rw [h]
  rfl

/-- C4 (counterexample): the claim that `maxChars > hardMaxChars` raises a
configuration error is false: `base_tokenize` performs no such validation —
with `max_chars_per_chunk = 5 > 3 = hard_max_chars` and an available
analyzer it chunks, analyses and returns normally. -/
theorem tokenize_no_config_check :
    3 < 5 ∧ base_tokenize none none (String.toList "x") (.bool true) (.bool false) 5 3
      (some idAnalyzer) (some ()) = .ok ["x"] :=
  ⟨by decide, rfl⟩

/-- C4 (amended): the only configuration error the pipeline raises is the
`RuntimeError` for a missing analyzer capability: `base_tokenize` returns
the error exactly when the tokenizer or the split mode resolves (argument,
else module default) to `None`, before any chunking or analysis, and
independently of `max_chars_per_chunk` and `hard_max_chars`; it never
validates `maxChars ≤ hardMaxChars`. -/
theorem tokenize_error_iff_uninitialized (TOK tok : Option Analyzer)
    (SPLIT sm : Option SplitMode) (text : List Char) (keep_pos ng_words : PySetArg)
    (maxChars hardChars : Nat) :
    base_tokenize TOK SPLIT text keep_pos ng_words maxChars hardChars tok sm =
        .error sudachiUninitMsg ↔
      (resolveOpt tok TOK = none ∨ resolveOpt sm SPLIT = none) := by
  unfold base_tokenize
  rcases h1 : resolveOpt tok TOK with _ | t <;>
    rcases h2 : resolveOpt sm SPLIT with _ | s <;>
      simp [h1, h2]

/-- C10: a whitespace-only input (spaces, tabs, newlines, full-width
spaces, or empty) yields zero chunks from the chunker, and the pipeline
returns the empty token sequence without error. -/
theorem whitespace_only_yields_nothing (text : List Char) (maxChars hardChars : Nat)
    (TOK : Option Analyzer) (SPLIT : Option SplitMode) (t : Analyzer) (sm : SplitMode)
    (keep_pos ng_words : PySetArg) (h : ∀ c ∈ text, isPySpace c = true) :
    iterSpaceChunks text maxChars hardChars = [] ∧
    base_tokenize TOK SPLIT text keep_pos ng_words maxChars hardChars
      (some t) (some sm) = .ok [] := by
  refine ⟨iterSpaceChunks_allWs h, ?_⟩
  have hbt : base_tokenize TOK SPLIT text keep_pos ng_words maxChars hardChars
      (some t) (some sm) =
      .ok ((iterSpaceChunks (clean_text text) maxChars hardChars).flatMap
        (chunkContribution t sm (resolveKeepPos keep_pos) (resolveNgWords ng_words))) := rfl
  rw [hbt, iterSpaceChunks_allWs (clean_text_allWs h)]
  rfl

/-- C10 witness: a concrete input of a space, a tab, an ideographic
(full-width) space and a newline yields no chunks and no tokens. -/
theorem whitespace_only_yields_nothing_example :
    iterSpaceChunks (String.toList " \t　\n") 2000 4000 = [] ∧
    base_tokenize none none (String.toList " \t　\n") (.bool true) (.bool false)
      2000 4000 (some idAnalyzer) (some ()) = .ok [] :=
  whitespace_only_yields_nothing (String.toList " \t　\n") 2000 4000 none none
    idAnalyzer () (.bool true) (.bool false) (by decide)

/-- C6: a single whitespace-free word of length exactly `hardMaxChars`
yields exactly one chunk equal to the word (no fragmentation); a single
word of length `hardMaxChars + 1` (with `1 ≤ hardMaxChars`; at
`hardMaxChars = 0` the source's forced-split loop does not terminate)
yields exactly two chunks: the first `hardMaxChars` characters, then the
final one-character remainder. -/
theorem single_word_boundary_chunks (w : List Char) (maxChars hardMaxChars : Nat)
    (hne : w ≠ []) (hnw : allNonWs w) :
    (w.length = hardMaxChars → iterSpaceChunks w maxChars hardMaxChars = [w]) ∧
    (1 ≤ hardMaxChars → w.length = hardMaxChars + 1 →
      iterSpaceChunks w maxChars hardMaxChars =
        [w.take hardMaxChars, w.drop hardMaxChars] ∧
      (w.drop hardMaxChars).length = 1) := by
  have hiter : iterSpaceChunks w maxChars hardMaxChars =
      chunkLoop maxChars hardMaxChars [w] ([], 0) := by
    unfold iterSpaceChunks
    rw [if_neg hne, pyStrip_of_nonWs hnw, pyWords_single hnw hne]
  have hloop : chunkLoop maxChars hardMaxChars [w] ([], 0) =
      (chunkStep maxChars hardMaxChars ([], 0) w).1 ++
        chunkLoop maxChars hardMaxChars []
          ((chunkStep maxChars hardMaxChars ([], 0) w).2.1,
            (chunkStep maxChars hardMaxChars ([], 0) w).2.2) := rfl
  have hstep : chunkStep maxChars hardMaxChars ([], 0) w =
      chunkPost hardMaxChars [] [w] (0 + (0 + w.length)) := chunkStep_eq_add_empty hne
  have h00 : (0 : Nat) + (0 + w.length) = w.length := by omega
  constructor
  · intro hlen
    have hpos : 1 ≤ hardMaxChars := by
      have := List.length_pos.mpr hne
      omega
    have hfs : forceSplitF w.length hardMaxChars w = ([], w) :=
      forceSplitF_of_le (le_of_eq hlen) _
    have hpost := chunkPost_single hpos [] w hne
    rw [hfs] at hpost
    dsimp only at hpost
    rw [hiter, hloop, hstep, h00, hpost]
    dsimp only
    rw [List.nil_append]
    have hfin : chunkLoop maxChars hardMaxChars [] ([w], w.length) = [spaceJoin [w]] := by
      unfold chunkLoop
      rw [if_neg (List.cons_ne_nil _ _)]
    rw [hfin]
    rfl
  · intro hpos hlen
    have hlt : hardMaxChars < w.length := by omega
    have hdrop : (w.drop hardMaxChars).length = 1 := by
      rw [List.length_drop]
      omega
    have hfs : forceSplitF w.length hardMaxChars w =
        ([w.take hardMaxChars], w.drop hardMaxChars) := by
      rw [hlen]
      show forceSplitF (hardMaxChars + 1) hardMaxChars w = _
      rw [forceSplitF, if_pos hlt,
        forceSplitF_of_le (show (w.drop hardMaxChars).length ≤ hardMaxChars by omega)]
    have hpost := chunkPost_single hpos [] w hne
    rw [hfs] at hpost
    dsimp only at hpost
    refine ⟨?_, hdrop⟩
    rw [hiter, hloop, hstep, h00, hpost]
    dsimp only
    rw [List.nil_append]
    have hfin : chunkLoop maxChars hardMaxChars []
        ([w.drop hardMaxChars], (w.drop hardMaxChars).length) =
        [spaceJoin [w.drop hardMaxChars]] := by
      unfold chunkLoop
      rw [if_neg (List.cons_ne_nil _ _)]
    rw [hfin]
    rfl

/-- C6 witness: the theorem at `hardMaxChars = 3` with the word `"aaa"`
(exactly the bound, one chunk) and the word `"aaaa"` (one over the bound,
two chunks `"aaa"` and `"a"`). -/
theorem single_word_boundary_chunks_example :
    iterSpaceChunks (String.toList "aaa") 2 3 = [String.toList "aaa"] ∧
    iterSpaceChunks (String.toList "aaaa") 2 3 =
      [(String.toList "aaaa").take 3, (String.toList "aaaa").drop 3] ∧
    ((String.toList "aaaa").drop 3).length = 1 :=
  ⟨(single_word_boundary_chunks (String.toList "aaa") 2 3 (by decide) (by decide)).1
      (by decide),
    (single_word_boundary_chunks (String.toList "aaaa") 2 3 (by decide) (by decide)).2
      (by decide) (by decide)⟩

/-- C5 (counterexample): "at most one word of the input is fragmented
across multiple chunks" is false: with `maxChars = 2 ≤ 3 = hardMaxChars`
and input `"aaaa bbbb"`, both words exceed the hard bound and both are
force-split — the recovered word sequence is
`["aaa", "a", "bbb", "b"]`, which cannot be obtained from
`["aaaa", "bbbb"]` by fragmenting at most one word. -/
theorem two_words_can_fragment :
    2 ≤ 3 ∧ ¬ AtMostOneFragmented (pyWords (String.toList "aaaa bbbb"))
      ((iterSpaceChunks (String.toList "aaaa bbbb") 2 3).flatMap pyWords) := by
  refine ⟨by decide, ?_⟩
  intro h
  unfold AtMostOneFragmented at h
  rw [show pyWords (String.toList "aaaa bbbb") =
      [String.toList "aaaa", String.toList "bbbb"] from by decide] at h
  rw [show (iterSpaceChunks (String.toList "aaaa bbbb") 2 3).flatMap pyWords =
      [String.toList "aaa", String.toList "a", String.toList "bbb", String.toList "b"]
      from by decide] at h
  rcases h with h | ⟨pre, w, suf, frags, hw, _, _, _, hcw⟩
  · exact absurd h (by decide)
  · rcases pre with _ | ⟨a1, pre⟩
    · rw [List.nil_append] at hw hcw
      injection hw with hw1 hsuf
      subst hw1
      subst hsuf
      have hl3 : frags.length = 3 := by
        have hc := congrArg List.length hcw
        simp at hc
        omega
      rcases frags with _ | ⟨f1, _ | ⟨f2, _ | ⟨f3, _ | ⟨f4, ft⟩⟩⟩⟩ <;> simp at hl3
      simp only [List.cons_append, List.nil_append] at hcw
      injection hcw with h1 hcw
      injection hcw with h2 hcw
      injection hcw with h3 hcw
      injection hcw with h4 hcw
      exact absurd h4 (by decide)
    · rcases pre with _ | ⟨a2, pre⟩
      · simp only [List.cons_append, List.nil_append] at hw hcw
        injection hw with h1 hw
        injection hw with h2 hsuf
        subst h1
        subst hsuf
        rw [List.append_nil] at hcw
        injection hcw with h5 hcw
        exact absurd h5 (by decide)
      · have hc := congrArg List.length hw
        simp at hc

end LyricTokenizer
